import Mathlib

/-!
Verification of the document-ingestion pipeline (text segmentation, content
addressing, simhash duplicate detection, readiness scoring and vector-store
ingestion) against its specification.

The Python sources are shallowly embedded: text is modelled as `List Char`,
Python `dict` records as structures of `Option` fields (a missing key is
`none`), machine integers as `Int`/`Nat`, and the fallible/stateful parts as
explicit state passing.  Python truthiness of strings/lists ("" and [] are
falsy) is modelled explicitly where the source relies on it.
-/

/-- Characters treated as whitespace by Python's `str.strip` / `str.split`
(ASCII range; the sources only ever strip ASCII whitespace). -/
def isPySpace (c : Char) : Bool :=
  c = ' ' || c = '\t' || c = '\n' || c = '\r' || c = Char.ofNat 11 || c = Char.ofNat 12

/-- Python text, modelled character by character. -/
abbrev Str := List Char

/-- Conversion helper for writing concrete Python strings. -/
def pyS (s : String) : Str := s.toList

/-- Python `str.strip()` with no argument: drop leading and trailing
whitespace. -/
def pyStrip (s : Str) : Str :=
  ((s.dropWhile isPySpace).reverse.dropWhile isPySpace).reverse

/-- Split a text into its maximal runs of characters satisfying `p`,
dropping the separators; `cur` is the current run, reversed. -/
def runsAux (p : Char → Bool) : Str → Str → List Str
  | [], cur => if cur = [] then [] else [cur.reverse]
  | c :: cs, cur =>
    if p c then runsAux p cs (c :: cur)
    else if cur = [] then runsAux p cs []
    else cur.reverse :: runsAux p cs []

/-- Maximal runs of characters satisfying `p`. -/
def runsOf (p : Char → Bool) (s : Str) : List Str := runsAux p s []

/-- Python `str.split()` with no argument: split on whitespace runs,
dropping empty pieces. -/
def pySplitWs (s : Str) : List Str := runsOf (fun c => !isPySpace c) s

/-- Python `" ".join(pieces)`. -/
def pyJoinSpace : List Str → Str
  | [] => []
  | [w] => w
  | w :: v :: rest => w ++ ' ' :: pyJoinSpace (v :: rest)

/-! ## ReadinessScorer (src/backend/pipeline/quality_checks.py and
src/backend/pipeline/persist_results.py) -/

/-- A pipeline finding, as far as the scorer is concerned: the `severity`
key of the finding dict (`none` models a missing key). -/
structure Finding where
  ftype : Option String
  severity : Option String
deriving DecidableEq

/-- `SEVERITY_DEDUCTIONS.get(sev, 0)` from quality_checks.py. -/
def SEVERITY_DEDUCTIONS (sev : String) : Nat :=
  if sev = "CRITICAL" then 40
  else if sev = "WARN" then 15
  else if sev = "INFO" then 5
  else 0

/-- Deduction applied to one finding by `compute_readiness`:
`SEVERITY_DEDUCTIONS.get(finding.get("severity", "INFO"), 0)`. -/
def findingDeduction (f : Finding) : Nat :=
  SEVERITY_DEDUCTIONS (f.severity.getD ("INFO"))

/-- `compute_readiness` from quality_checks.py: start at 100, subtract the
per-severity deduction for every finding, clamp to [0, 100]. -/
def compute_readiness (findings : List Finding) : Int :=
  let score := findings.foldl (fun s f => s - (findingDeduction f : Int)) 100
  max 0 (min 100 score)

/-- `adjust_readiness` from persist_results.py: subtract 3 for each finding
whose severity is WARN, clamp to [0, 100]. -/
def adjust_readiness (base_score : Int) (extra_findings : List Finding) : Int :=
  let score := extra_findings.foldl
    (fun s f => if f.severity = some ("WARN") then s - 3 else s) base_score
  max 0 (min 100 score)

/-- Number of findings of a given effective severity (missing severities
default to INFO, as in `finding.get("severity", "INFO")`). -/
def countSeverity (findings : List Finding) (sev : String) : Nat :=
  findings.countP (fun f => f.severity.getD ("INFO") = sev)

theorem adjust_foldl_eq (fs : List Finding) (b : Int) :
    fs.foldl (fun s f => if f.severity = some ("WARN") then s - 3 else s) b
      = b - 3 * (fs.countP (fun f => f.severity = some ("WARN")) : Int) := by
  induction fs generalizing b with
  | nil => simp
  | cons f rest ih =>
    by_cases h : f.severity = some ("WARN") <;>
      simp [List.countP_cons, h, ih] <;> ring

theorem readiness_foldl_eq (fs : List Finding) (b : Int) :
    fs.foldl (fun s f => s - (findingDeduction f : Int)) b
      = b - ((fs.map findingDeduction).sum : Int) := by
  induction fs generalizing b with
  | nil => simp
  | cons f rest ih => simp [ih]; ring

theorem deduction_split (s : String) :
    SEVERITY_DEDUCTIONS s
      = 40 * (if s = "CRITICAL" then 1 else 0)
        + 15 * (if s = "WARN" then 1 else 0)
        + 5 * (if s = "INFO" then 1 else 0) := by
  unfold SEVERITY_DEDUCTIONS
  by_cases h1 : s = "CRITICAL" <;> by_cases h2 : s = "WARN" <;>
    by_cases h3 : s = "INFO" <;> simp [h1, h2, h3] <;> simp_all

theorem deduction_sum_eq (fs : List Finding) :
    (fs.map findingDeduction).sum
      = 40 * countSeverity fs ("CRITICAL") + 15 * countSeverity fs ("WARN")
        + 5 * countSeverity fs ("INFO") := by
  induction fs with
  | nil => simp [countSeverity]
  | cons f rest ih =>
    have hf := deduction_split (f.severity.getD ("INFO"))
    simp only [List.map_cons, List.sum_cons, ih, countSeverity,
      List.countP_cons, findingDeduction, hf]
    by_cases h1 : f.severity.getD ("INFO") = "CRITICAL" <;>
      by_cases h2 : f.severity.getD ("INFO") = "WARN" <;>
        by_cases h3 : f.severity.getD ("INFO") = "INFO" <;>
          simp [h1, h2, h3, countSeverity] <;> ring

/-- C3: `adjust_readiness(baseScore, extraFindings)` subtracts exactly 3 for
each finding whose severity is WARN, subtracts nothing for findings of any
other severity (CRITICAL and INFO included), and clamps the result to
[0, 100].  The closed form shows the deduction is the constant 3 per WARN
item, independent of `compute_readiness`'s `SEVERITY_DEDUCTIONS` table
(which charges 40/15/5). -/
theorem claim_C3_adjust_readiness :
    ∀ (base_score : Int) (extra_findings : List Finding),
      adjust_readiness base_score extra_findings
        = max 0 (min 100 (base_score
            - 3 * (extra_findings.countP
                (fun f => f.severity = some ("WARN")) : Int))) := by
  intro b fs
  unfold adjust_readiness
  rw [adjust_foldl_eq]

/-- C4: `compute_readiness(findings)` equals 100 minus 40 per CRITICAL
finding, 15 per WARN finding and 5 per INFO finding (a finding with no
severity key defaults to INFO; unknown severities deduct nothing), clamped
to [0, 100]; consequently it is monotonically non-increasing as findings
are appended. -/
theorem claim_C4_compute_readiness :
    (∀ findings : List Finding,
      compute_readiness findings
        = max 0 (min 100 (100
            - (40 * (countSeverity findings ("CRITICAL")) : Int)
            - (15 * (countSeverity findings ("WARN")) : Int)
            - (5 * (countSeverity findings ("INFO")) : Int))))
    ∧ (∀ findings extra : List Finding,
        compute_readiness (findings ++ extra) ≤ compute_readiness findings) := by
  constructor
  · intro fs
    unfold compute_readiness
    rw [readiness_foldl_eq, deduction_sum_eq]
    push_cast
    ring_nf
  · intro fs gs
    unfold compute_readiness
    rw [readiness_foldl_eq, readiness_foldl_eq]
    have hsum : ((fs.map findingDeduction).sum : Int)
        ≤ (((fs ++ gs).map findingDeduction).sum : Int) := by
      have hn : (fs.map findingDeduction).sum
          ≤ ((fs ++ gs).map findingDeduction).sum := by
        simp only [List.map_append, List.sum_append]
        exact Nat.le_add_right _ _
      exact_mod_cast hn
    have hscore : (100 : Int) - (((fs ++ gs).map findingDeduction).sum : Int)
        ≤ 100 - ((fs.map findingDeduction).sum : Int) := by omega
    exact max_le_max (le_refl 0) (min_le_min (le_refl 100) hscore)

/-! ## Byte-level hashing (hashlib.sha256 / hashlib.md5 as used by
chunk_records.compute_content_hash and simhash.simhash) -/

/-- 2^32, the word modulus of SHA-256 and MD5. -/
def M32 : Nat := 4294967296

/-- UTF-8 encoding of one character (Python `str.encode("utf-8")`). -/
def utf8Char (c : Char) : List Nat :=
  let n := c.toNat
  if n < 128 then [n]
  else if n < 2048 then [192 + n / 64, 128 + n % 64]
  else if n < 65536 then [224 + n / 4096, 128 + (n / 64) % 64, 128 + n % 64]
  else [240 + n / 262144, 128 + (n / 4096) % 64, 128 + (n / 64) % 64, 128 + n % 64]

/-- UTF-8 encoding of a text. -/
def utf8 (s : Str) : List Nat := (s.map utf8Char).join

/-- `count` bytes of `v`, big-endian (most significant first). -/
def beBytes : Nat → Nat → List Nat
  | 0, _ => []
  | k + 1, v => beBytes k (v / 256) ++ [v % 256]

/-- `count` bytes of `v`, little-endian (least significant first). -/
def leBytes : Nat → Nat → List Nat
  | 0, _ => []
  | k + 1, v => v % 256 :: leBytes k (v / 256)

/-- Split a byte string into 64-byte blocks. -/
def toBlocks (bs : List Nat) : List (List Nat) :=
  if h : bs = [] then []
  else bs.take 64 :: toBlocks (bs.drop 64)
termination_by bs.length
decreasing_by
  have : bs.length ≠ 0 := fun hl => h (List.eq_nil_of_length_eq_zero hl)
  simp only [List.length_drop]
  omega

/-- Merkle–Damgård padding shared by SHA-256 and MD5: append 0x80, zero
bytes up to 56 mod 64, then the 8-byte bit length (big-endian for SHA-256,
little-endian for MD5). -/
def padMsg (big : Bool) (msg : List Nat) : List Nat :=
  let L := msg.length
  let k := (119 - L % 64) % 64
  msg ++ [128] ++ List.replicate k 0
      ++ (if big then beBytes 8 (8 * L) else leBytes 8 (8 * L))

/-- 32-bit rotate left. -/
def rotl32 (n x : Nat) : Nat := ((x <<< n) ||| (x >>> (32 - n))) % M32

/-- 32-bit rotate right. -/
def rotr32 (n x : Nat) : Nat := ((x >>> n) ||| (x <<< (32 - n))) % M32

/-- Bitwise complement on 32-bit words (values are kept `< 2^32`). -/
def not32 (x : Nat) : Nat := 4294967295 ^^^ x

/-- Big-endian 32-bit word `i` of a 64-byte block. -/
def beWord (bs : List Nat) (i : Nat) : Nat :=
  ((bs.getD (4 * i) 0 * 256 + bs.getD (4 * i + 1) 0) * 256
    + bs.getD (4 * i + 2) 0) * 256 + bs.getD (4 * i + 3) 0

/-- Little-endian 32-bit word `i` of a 64-byte block. -/
def leWord (bs : List Nat) (i : Nat) : Nat :=
  ((bs.getD (4 * i + 3) 0 * 256 + bs.getD (4 * i + 2) 0) * 256
    + bs.getD (4 * i + 1) 0) * 256 + bs.getD (4 * i) 0

/-- The eight working variables of SHA-256 (resp. four of MD5 padded with
zeros). -/
structure Words8 where
  a : Nat
  b : Nat
  c : Nat
  d : Nat
  e : Nat
  f : Nat
  g : Nat
  hh : Nat
deriving DecidableEq

/-- SHA-256 round constants (cube roots of the first 64 primes). -/
def sha256K : List Nat :=
  [1116352408, 1899447441, 3049323471, 3921009573,
   961987163, 1508970993, 2453635748, 2870763221,
   3624381080, 310598401, 607225278, 1426881987,
   1925078388, 2162078206, 2614888103, 3248222580,
   3835390401, 4022224774, 264347078, 604807628,
   770255983, 1249150122, 1555081692, 1996064986,
   2554220882, 2821834349, 2952996808, 3210313671,
   3336571891, 3584528711, 113926993, 338241895,
   666307205, 773529912, 1294757372, 1396182291,
   1695183700, 1986661051, 2177026350, 2456956037,
   2730485921, 2820302411, 3259730800, 3345764771,
   3516065817, 3600352804, 4094571909, 275423344,
   430227734, 506948616, 659060556, 883997877,
   958139571, 1322822218, 1537002063, 1747873779,
   1955562222, 2024104815, 2227730452, 2361852424,
   2428436474, 2756734187, 3204031479, 3329325298]

/-- SHA-256 initial hash values. -/
def sha256H0 : Words8 :=
  ⟨1779033703, 3144134277, 1013904242, 2773480762,
   1359893119, 2600822924, 528734635, 1541459225⟩

/-- Extend the 16 block words to the 64-entry SHA-256 message schedule. -/
def sha256Extend (w : List Nat) : Nat → List Nat
  | 0 => w
  | k + 1 =>
    let i := w.length
    let x15 := w.getD (i - 15) 0
    let x2 := w.getD (i - 2) 0
    let s0 := rotr32 7 x15 ^^^ rotr32 18 x15 ^^^ (x15 >>> 3)
    let s1 := rotr32 17 x2 ^^^ rotr32 19 x2 ^^^ (x2 >>> 10)
    sha256Extend (w ++ [(w.getD (i - 16) 0 + s0 + w.getD (i - 7) 0 + s1) % M32]) k

/-- Message schedule of one 64-byte block. -/
def sha256W (block : List Nat) : List Nat :=
  sha256Extend ((List.range 16).map (beWord block)) 48

/-- One SHA-256 compression round. -/
def sha256Round (w : List Nat) (st : Words8) (i : Nat) : Words8 :=
  let S1 := rotr32 6 st.e ^^^ rotr32 11 st.e ^^^ rotr32 25 st.e
  let ch := (st.e &&& st.f) ^^^ (not32 st.e &&& st.g)
  let temp1 := (st.hh + S1 + ch + sha256K.getD i 0 + w.getD i 0) % M32
  let S0 := rotr32 2 st.a ^^^ rotr32 13 st.a ^^^ rotr32 22 st.a
  let maj := (st.a &&& st.b) ^^^ (st.a &&& st.c) ^^^ (st.b &&& st.c)
  let temp2 := (S0 + maj) % M32
  ⟨(temp1 + temp2) % M32, st.a, st.b, st.c, (st.d + temp1) % M32, st.e, st.f, st.g⟩

/-- Compress one 64-byte block into the running hash state. -/
def sha256Block (hs : Words8) (block : List Nat) : Words8 :=
  let w := sha256W block
  let st := (List.range 64).foldl (sha256Round w) hs
  ⟨(hs.a + st.a) % M32, (hs.b + st.b) % M32, (hs.c + st.c) % M32,
   (hs.d + st.d) % M32, (hs.e + st.e) % M32, (hs.f + st.f) % M32,
   (hs.g + st.g) % M32, (hs.hh + st.hh) % M32⟩

/-- The 256-bit SHA-256 digest of a byte string, as a natural number
(big-endian concatenation of the eight hash words, which is exactly the
value of `hashlib.sha256(...).hexdigest()` read as hex). -/
def sha256Digest (msg : List Nat) : Nat :=
  let hs := (toBlocks (padMsg true msg)).foldl sha256Block sha256H0
  ((((((hs.a * M32 + hs.b) * M32 + hs.c) * M32 + hs.d) * M32 + hs.e) * M32
    + hs.f) * M32 + hs.g) * M32 + hs.hh

/-- Lowercase hex digit. -/
def hexChar (n : Nat) : Char :=
  if n < 10 then Char.ofNat (48 + n) else Char.ofNat (87 + n)

/-- `count` lowercase hex digits of `v`, most significant first. -/
def hexDigits : Nat → Nat → Str
  | 0, _ => []
  | k + 1, v => hexDigits k (v / 16) ++ [hexChar (v % 16)]

/-- `hashlib.sha256(msg).hexdigest()`: 64 lowercase hex characters. -/
def sha256Hex (msg : List Nat) : Str := hexDigits 64 (sha256Digest msg)

/-- MD5 round constants (`floor(abs(sin(i + 1)) * 2^32)`). -/
def md5K : List Nat :=
  [3614090360, 3905402710, 606105819, 3250441966,
   4118548399, 1200080426, 2821735955, 4249261313,
   1770035416, 2336552879, 4294925233, 2304563134,
   1804603682, 4254626195, 2792965006, 1236535329,
   4129170786, 3225465664, 643717713, 3921069994,
   3593408605, 38016083, 3634488961, 3889429448,
   568446438, 3275163606, 4107603335, 1163531501,
   2850285829, 4243563512, 1735328473, 2368359562,
   4294588738, 2272392833, 1839030562, 4259657740,
   2763975236, 1272893353, 4139469664, 3200236656,
   681279174, 3936430074, 3572445317, 76029189,
   3654602809, 3873151461, 530742520, 3299628645,
   4096336452, 1126891415, 2878612391, 4237533241,
   1700485571, 2399980690, 4293915773, 2240044497,
   1873313359, 4264355552, 2734768916, 1309151649,
   4149444226, 3174756917, 718787259, 3951481745]

/-- MD5 per-round left-rotation amounts. -/
def md5S : List Nat :=
  [7, 12, 17, 22, 7, 12, 17, 22, 7, 12, 17, 22, 7, 12, 17, 22,
   5, 9, 14, 20, 5, 9, 14, 20, 5, 9, 14, 20, 5, 9, 14, 20,
   4, 11, 16, 23, 4, 11, 16, 23, 4, 11, 16, 23, 4, 11, 16, 23,
   6, 10, 15, 21, 6, 10, 15, 21, 6, 10, 15, 21, 6, 10, 15, 21]

/-- One MD5 round: mixing function and message-word index depend on the
round quarter. -/
def md5Round (m : List Nat) (st : Words8) (i : Nat) : Words8 :=
  let fg :=
    if i < 16 then ((st.b &&& st.c) ||| (not32 st.b &&& st.d), i)
    else if i < 32 then ((st.d &&& st.b) ||| (not32 st.d &&& st.c), (5 * i + 1) % 16)
    else if i < 48 then (st.b ^^^ st.c ^^^ st.d, (3 * i + 5) % 16)
    else (st.c ^^^ (st.b ||| not32 st.d), (7 * i) % 16)
  let sum := (st.a + fg.1 + md5K.getD i 0 + m.getD fg.2 0) % M32
  let nb := (st.b + rotl32 (md5S.getD i 0) sum) % M32
  ⟨st.d, nb, st.b, st.c, 0, 0, 0, 0⟩

/-- Compress one 64-byte block into the running MD5 state. -/
def md5Block (hs : Words8) (block : List Nat) : Words8 :=
  let m := (List.range 16).map (leWord block)
  let st := (List.range 64).foldl (md5Round m) hs
  ⟨(hs.a + st.a) % M32, (hs.b + st.b) % M32, (hs.c + st.c) % M32,
   (hs.d + st.d) % M32, 0, 0, 0, 0⟩

/-- MD5 initial state. -/
def md5H0 : Words8 := ⟨1732584193, 4023233417, 2562383102, 271733878, 0, 0, 0, 0⟩

/-- `int(hashlib.md5(msg).hexdigest(), 16)`: the 16 digest bytes (the four
state words serialized little-endian) read as a big-endian number. -/
def md5Int (msg : List Nat) : Nat :=
  let hs := (toBlocks (padMsg false msg)).foldl md5Block md5H0
  (leBytes 4 hs.a ++ leBytes 4 hs.b ++ leBytes 4 hs.c ++ leBytes 4 hs.d).foldl
    (fun acc b => acc * 256 + b) 0

/-! ## ContentAddressor (src/backend/pipeline/common/chunk_records.py) -/

/-- `normalize_text`: `" ".join(text.split())` — collapse whitespace runs
to single spaces and trim. -/
def normalize_text (text : Str) : Str := pyJoinSpace (pySplitWs text)

/-- Python `f"{i}"` for an int. -/
def intStr (i : Int) : Str :=
  match i with
  | Int.ofNat n => Nat.toDigits 10 n
  | Int.negSucc n => '-' :: Nat.toDigits 10 (n + 1)

/-- Python `page or 0`: `None` and `0` both give `0`, any other int gives
itself. -/
def pageOrZero (page : Option Int) : Int := page.getD 0

/-- The string fed to SHA-256 by `compute_content_hash`:
`f"{doc_id}|{page or 0}|{chunk_index}|{normalized}"`. -/
def contentHashBase (doc_id : Str) (page : Option Int) (chunk_index : Int)
    (text : Str) : Str :=
  doc_id ++ ['|'] ++ intStr (pageOrZero page) ++ ['|'] ++ intStr chunk_index
    ++ ['|'] ++ normalize_text text

/-- `compute_content_hash(doc_id, page, chunk_index, text)`:
SHA-256 hex digest of the base string. -/
def compute_content_hash (doc_id : Str) (page : Option Int)
    (chunk_index : Int) (text : Str) : Str :=
  sha256Hex (utf8 (contentHashBase doc_id page chunk_index text))

/-- `f"{doc_id}#p{page or 0}#c{chunk_index}"` — the chunk id built by
`build_chunk_record` (and, for records lacking one, by
`vector_ingest.normalize_record`). -/
def chunkIdStr (doc_id : Str) (page : Option Int) (chunk_index : Int) : Str :=
  doc_id ++ pyS ("#p") ++ intStr (pageOrZero page) ++ pyS ("#c") ++ intStr chunk_index

/-- The chunk record assembled by `build_chunk_record` (the
construction-industry enrichment fields added behind
`include_construction_metadata` come from common/construction.py and do not
touch the content-addressing fields; they are omitted here). -/
structure ChunkRecordB where
  tenant_id : Str
  dataset_id : Str
  doc_id : Str
  source_uri : Str
  filename : Str
  page : Option Int
  chunk_id : Str
  chunk_index : Int
  text : Str
  created_at : Str
  embedding_model : Str
  content_hash : Str
  acl : List Str
deriving DecidableEq

/-- `build_chunk_record` from chunk_records.py. -/
def build_chunk_record (tenant_id dataset_id doc_id source_uri filename : Str)
    (page : Option Int) (chunk_index : Int) (text : Str)
    (created_at embedding_model : Str) (acl : Option (List Str)) : ChunkRecordB :=
  ⟨tenant_id, dataset_id, doc_id, source_uri, filename, page,
   chunkIdStr doc_id page chunk_index,
   chunk_index, text, created_at, embedding_model,
   compute_content_hash doc_id page chunk_index text,
   acl.getD []⟩

/-! ## Simhash Engine (src/backend/pipeline/common/simhash.py) -/

/-- A `[a-z0-9]` character (the token alphabet of `tokenize`). -/
def isTokenChar (c : Char) : Bool :=
  ('a' ≤ c && c ≤ 'z') || ('0' ≤ c && c ≤ '9')

/-- `tokenize(text)`: `re.findall(r"[a-z0-9]+", text.lower())` — maximal
lowercase-alphanumeric runs after lowercasing. -/
def tokenize (text : Str) : List Str :=
  runsOf isTokenChar (text.map Char.toLower)

/-- One token's contribution to the 64 signed counters: counter `i` is
incremented when bit `i` of the token's MD5 value is set, decremented
otherwise. -/
def simhashUpdate (hashbits : Nat) (v : List Int) (token : Str) : List Int :=
  let token_hash := md5Int (utf8 token)
  (List.range hashbits).map (fun i =>
    v.getD i 0 + (if token_hash &&& (1 <<< i) ≠ 0 then 1 else -1))

/-- `simhash(text, hashbits)` from simhash.py: empty token set gives 0,
otherwise the fingerprint has bit `i` set exactly when counter `i` ends
`≥ 0`. -/
def simhash (text : Str) (hashbits : Nat) : Nat :=
  let tokens := tokenize text
  if tokens = [] then 0
  else
    let v := tokens.foldl (simhashUpdate hashbits) (List.replicate hashbits (0 : Int))
    (List.range hashbits).foldl
      (fun fp i => if 0 ≤ v.getD i 0 then fp ||| (1 <<< i) else fp) 0

/-- Number of set bits: `bin(n).count("1")`. -/
def popcount (n : Nat) : Nat :=
  if n = 0 then 0 else popcount (n / 2) + n % 2
termination_by n
decreasing_by
  exact Nat.div_lt_self (Nat.pos_of_ne_zero (by assumption)) (by omega)

/-- `hamming_distance(a, b)`: popcount of the XOR. -/
def hamming_distance (a b : Nat) : Nat := popcount (a ^^^ b)

/-- C9: `simhash` is deterministic — it is a pure function of the text, so
equal inputs give equal 64-bit fingerprints and
`distance(simhash(t), simhash(t)) = 0` for every text; and every text
whose token set is empty (no lowercase-alphanumeric runs) has fingerprint
0. -/
theorem claim_C9_simhash_deterministic :
    (∀ t : Str, simhash t 64 = simhash t 64
      ∧ hamming_distance (simhash t 64) (simhash t 64) = 0)
    ∧ (∀ t : Str, tokenize t = [] → simhash t 64 = 0) := by
  constructor
  · intro t
    refine ⟨rfl, ?_⟩
    unfold hamming_distance
    rw [Nat.xor_self]
    simp [popcount]
  · intro t h
    unfold simhash
    simp [h]

/-- Witness for C9: the text `"!!! ???"` has no alphanumeric token, and its
fingerprint is 0. -/
theorem claim_C9_simhash_deterministic_witness :
    tokenize (pyS ("!!! ???")) = [] ∧ simhash (pyS ("!!! ???")) 64 = 0 := by
  constructor
  · decide
  · exact claim_C9_simhash_deterministic.2 (pyS ("!!! ???")) (by decide)

/-! ## C2: content-hash whitespace invariance and collision behaviour -/

theorem runsAux_mem (p : Char → Bool) :
    ∀ (s cur w : Str), (∀ c ∈ cur, p c = true) → w ∈ runsAux p s cur →
      w ≠ [] ∧ ∀ c ∈ w, p c = true := by
  intro s
  induction s with
  | nil =>
    intro cur w hcur hw
    by_cases hc : cur = []
    · simp [runsAux, hc] at hw
    · simp [runsAux, hc] at hw
      subst hw
      refine ⟨by simpa using hc, ?_⟩
      intro c hc2
      exact hcur c (List.mem_reverse.mp hc2)
  | cons c cs ih =>
    intro cur w hcur hw
    by_cases hp : p c
    · simp [runsAux, hp] at hw
      refine ih (c :: cur) w ?_ hw
      intro d hd
      rcases List.mem_cons.mp hd with h | h
      · exact h ▸ hp
      · exact hcur d h
    · by_cases hc : cur = []
      · simp [runsAux, hp, hc] at hw
        exact ih [] w (by simp) hw
      · simp [runsAux, hp, hc] at hw
        rcases hw with hw | hw
        · subst hw
          refine ⟨by simpa using hc, ?_⟩
          intro d hd
          exact hcur d (List.mem_reverse.mp hd)
        · exact ih [] w (by simp) hw

theorem runsAux_run (p : Char → Bool) (w : Str) (hw : ∀ c ∈ w, p c = true) :
    ∀ (s cur : Str), runsAux p (w ++ s) cur = runsAux p s (w.reverse ++ cur) := by
  induction w with
  | nil => intro s cur; simp
  | cons c w' ih =>
    intro s cur
    have hc : p c = true := hw c (List.mem_cons_self c w')
    have hw' : ∀ d ∈ w', p d = true := fun d hd => hw d (List.mem_cons_of_mem c hd)
    simp only [List.cons_append, runsAux, hc, if_pos]
    rw [List.append_eq, ih hw' s (c :: cur)]
    simp [List.append_assoc]

theorem pySplit_join_roundtrip :
    ∀ ws : List Str,
      (∀ w ∈ ws, w ≠ [] ∧ ∀ c ∈ w, isPySpace c = false) →
      pySplitWs (pyJoinSpace ws) = ws := by
  intro ws
  induction ws with
  | nil => intro _; rfl
  | cons w rest ih =>
    intro h
    have hw := h w (List.mem_cons_self w rest)
    have hwp : ∀ c ∈ w, (!isPySpace c) = true := by
      intro c hc
      simp [(hw.2 c hc)]
    cases rest with
    | nil =>
      show pySplitWs (pyJoinSpace [w]) = [w]
      have : pyJoinSpace [w] = w := rfl
      rw [this]
      unfold pySplitWs runsOf
      have := runsAux_run (fun c => !isPySpace c) w hwp [] []
      simp only [List.append_nil] at this
      rw [this]
      simp [runsAux, hw.1]
    | cons v rest' =>
      have hrest : ∀ u ∈ v :: rest', u ≠ [] ∧ ∀ c ∈ u, isPySpace c = false :=
        fun u hu => h u (List.mem_cons_of_mem w hu)
      show pySplitWs (w ++ ' ' :: pyJoinSpace (v :: rest')) = w :: v :: rest'
      unfold pySplitWs runsOf
      rw [runsAux_run (fun c => !isPySpace c) w hwp]
      simp only [List.append_nil]
      have hsp : (fun c => !isPySpace c) ' ' = false := by decide
      have hwr : w.reverse ≠ [] := by simpa using hw.1
      simp only [runsAux, hsp, Bool.false_eq_true, if_neg, hwr, if_false,
        List.reverse_reverse]
      have := ih hrest
      unfold pySplitWs runsOf at this
      rw [this]

theorem pySplitWs_words (t : Str) :
    ∀ w ∈ pySplitWs t, w ≠ [] ∧ ∀ c ∈ w, isPySpace c = false := by
  intro w hw
  have h := runsAux_mem (fun c => !isPySpace c) t [] w (by simp) hw
  refine ⟨h.1, fun c hc => ?_⟩
  have := h.2 c hc
  simpa using this

/-- Splitting is invariant under normalization: the word sequence of
`normalize_text t` is the word sequence of `t`. -/
theorem pySplitWs_normalize (t : Str) :
    pySplitWs (normalize_text t) = pySplitWs t := by
  unfold normalize_text
  exact pySplit_join_roundtrip (pySplitWs t) (pySplitWs_words t)

/-- All eight SHA-256 working words are reduced mod 2^32. -/
def wordsLT (hs : Words8) : Prop :=
  hs.a < M32 ∧ hs.b < M32 ∧ hs.c < M32 ∧ hs.d < M32
    ∧ hs.e < M32 ∧ hs.f < M32 ∧ hs.g < M32 ∧ hs.hh < M32

theorem sha256Block_lt (hs : Words8) (b : List Nat) : wordsLT (sha256Block hs b) := by
  have hpos : 0 < M32 := by decide
  exact ⟨Nat.mod_lt _ hpos, Nat.mod_lt _ hpos, Nat.mod_lt _ hpos,
    Nat.mod_lt _ hpos, Nat.mod_lt _ hpos, Nat.mod_lt _ hpos,
    Nat.mod_lt _ hpos, Nat.mod_lt _ hpos⟩

theorem foldl_sha256Block_lt (bs : List (List Nat)) :
    ∀ hs : Words8, wordsLT hs → wordsLT (bs.foldl sha256Block hs) := by
  induction bs with
  | nil => intro hs h; exact h
  | cons b rest ih =>
    intro hs _
    exact ih (sha256Block hs b) (sha256Block_lt hs b)

theorem mulAddLt (a y A B : Nat) (ha : a < A) (hy : y < B) :
    a * B + y < A * B := by
  calc a * B + y < a * B + B := by omega
  _ = (a + 1) * B := by ring
  _ ≤ A * B := Nat.mul_le_mul_right B ha

theorem digestVal_lt (hs : Words8) (h : wordsLT hs) :
    ((((((hs.a * M32 + hs.b) * M32 + hs.c) * M32 + hs.d) * M32 + hs.e) * M32
      + hs.f) * M32 + hs.g) * M32 + hs.hh < 2 ^ 256 := by
  obtain ⟨h1, h2, h3, h4, h5, h6, h7, h8⟩ := h
  have e1 : hs.a * M32 + hs.b < M32 * M32 := mulAddLt _ _ _ _ h1 h2
  have e2 : (hs.a * M32 + hs.b) * M32 + hs.c < M32 * M32 * M32 :=
    mulAddLt _ _ _ _ e1 h3
  have e3 : ((hs.a * M32 + hs.b) * M32 + hs.c) * M32 + hs.d
      < M32 * M32 * M32 * M32 := mulAddLt _ _ _ _ e2 h4
  have e4 : (((hs.a * M32 + hs.b) * M32 + hs.c) * M32 + hs.d) * M32 + hs.e
      < M32 * M32 * M32 * M32 * M32 := mulAddLt _ _ _ _ e3 h5
  have e5 : ((((hs.a * M32 + hs.b) * M32 + hs.c) * M32 + hs.d) * M32 + hs.e) * M32
      + hs.f < M32 * M32 * M32 * M32 * M32 * M32 := mulAddLt _ _ _ _ e4 h6
  have e6 : (((((hs.a * M32 + hs.b) * M32 + hs.c) * M32 + hs.d) * M32 + hs.e) * M32
      + hs.f) * M32 + hs.g < M32 * M32 * M32 * M32 * M32 * M32 * M32 :=
    mulAddLt _ _ _ _ e5 h7
  have e7 : ((((((hs.a * M32 + hs.b) * M32 + hs.c) * M32 + hs.d) * M32 + hs.e) * M32
      + hs.f) * M32 + hs.g) * M32 + hs.hh
      < M32 * M32 * M32 * M32 * M32 * M32 * M32 * M32 :=
    mulAddLt _ _ _ _ e6 h8
  have hM : M32 * M32 * M32 * M32 * M32 * M32 * M32 * M32 = 2 ^ 256 := by
    norm_num [M32]
  exact hM ▸ e7

theorem sha256H0_lt : wordsLT sha256H0 := by
  unfold wordsLT sha256H0 M32
  decide

theorem sha256Digest_lt (msg : List Nat) : sha256Digest msg < 2 ^ 256 :=
  digestVal_lt ((toBlocks (padMsg true msg)).foldl sha256Block sha256H0)
    (foldl_sha256Block_lt (toBlocks (padMsg true msg)) sha256H0 sha256H0_lt)

/-- C2 counterexample: it is not true that texts with different
non-whitespace word content always receive different content hashes — the
digest space is finite while texts are not, so `compute_content_hash` (with
`doc_id`, `page`, `chunkIndex` fixed) cannot be injective on word content.
The collision is obtained by pigeonhole, not exhibited explicitly. -/
theorem claim_C2_counterexample :
    ¬ (∀ (doc_id : Str) (page : Option Int) (chunk_index : Int) (t1 t2 : Str),
        pySplitWs t1 ≠ pySplitWs t2 →
        compute_content_hash doc_id page chunk_index t1
          ≠ compute_content_hash doc_id page chunk_index t2) := by
  intro h
  have hrep : ∀ n : ℕ, pySplitWs (List.replicate (n + 1) 'a')
      = [List.replicate (n + 1) 'a'] := by
    intro n
    have := pySplit_join_roundtrip [List.replicate (n + 1) 'a'] ?_
    · simpa [pyJoinSpace] using this
    · intro w hw
      simp only [List.mem_singleton] at hw
      subst hw
      refine ⟨by simp, ?_⟩
      intro c hc
      have := List.eq_of_mem_replicate hc
      subst this
      decide
  obtain ⟨n, m, hnm, heq⟩ := Finite.exists_ne_map_eq_of_infinite
    (fun n : ℕ => (⟨sha256Digest (utf8 (contentHashBase (pyS ("d")) none 0
      (List.replicate (n + 1) 'a'))), sha256Digest_lt _⟩ : Fin (2 ^ 256)))
  have hwords : pySplitWs (List.replicate (n + 1) 'a')
      ≠ pySplitWs (List.replicate (m + 1) 'a') := by
    rw [hrep n, hrep m]
    intro hcontra
    have := List.cons.injEq _ _ _ _ ▸ hcontra
    have hlen : n + 1 = m + 1 := by
      have := congrArg (fun l : List Str => (l.headI).length) hcontra
      simpa using this
    omega
  have hdig : sha256Digest (utf8 (contentHashBase (pyS ("d")) none 0
        (List.replicate (n + 1) 'a')))
      = sha256Digest (utf8 (contentHashBase (pyS ("d")) none 0
        (List.replicate (m + 1) 'a'))) := congrArg Fin.val heq
  exact h (pyS ("d")) none 0 _ _ hwords
    (by unfold compute_content_hash sha256Hex; rw [hdig])

/-- C2 (amended): whitespace-only differences (same non-whitespace word
sequence) never change `contentHash`; texts with different word sequences
always produce *different SHA-256 input strings* — so their hashes differ
unless SHA-256 itself collides on those inputs (hash inequality cannot be
guaranteed outright: the digest space is finite, see the counterexample). -/
theorem claim_C2_content_hash :
    ∀ (doc_id : Str) (page : Option Int) (chunk_index : Int) (t1 t2 : Str),
      (pySplitWs t1 = pySplitWs t2 →
        compute_content_hash doc_id page chunk_index t1
          = compute_content_hash doc_id page chunk_index t2)
      ∧ (pySplitWs t1 ≠ pySplitWs t2 →
        contentHashBase doc_id page chunk_index t1
          ≠ contentHashBase doc_id page chunk_index t2) := by
  intro doc_id page chunk_index t1 t2
  constructor
  · intro hsplit
    unfold compute_content_hash contentHashBase normalize_text
    rw [hsplit]
  · intro hsplit heq
    unfold contentHashBase at heq
    have hnorm : normalize_text t1 = normalize_text t2 := by
      have h2 := heq
      simp only [List.append_assoc] at h2
      exact List.append_cancel_left (List.append_cancel_left
        (List.append_cancel_left (List.append_cancel_left
          (List.append_cancel_left (List.append_cancel_left h2)))))
    have : pySplitWs t1 = pySplitWs t2 := by
      rw [← pySplitWs_normalize t1, ← pySplitWs_normalize t2, hnorm]
    exact hsplit this

/-- Witness for C2: concrete instances of both halves — `"a b"` versus
`"a  b "` share a hash; `"a"` versus `"b"` have different SHA-256 inputs. -/
theorem claim_C2_content_hash_witness :
    (pySplitWs (pyS ("a b")) = pySplitWs (pyS ("a  b "))
      ∧ compute_content_hash (pyS ("d")) none 0 (pyS ("a b"))
          = compute_content_hash (pyS ("d")) none 0 (pyS ("a  b ")))
    ∧ (pySplitWs (pyS ("a")) ≠ pySplitWs (pyS ("b"))
      ∧ contentHashBase (pyS ("d")) none 0 (pyS ("a"))
          ≠ contentHashBase (pyS ("d")) none 0 (pyS ("b"))) := by
  constructor
  · exact ⟨by decide,
      (claim_C2_content_hash (pyS ("d")) none 0 (pyS ("a b")) (pyS ("a  b "))).1
        (by decide)⟩
  · exact ⟨by decide,
      (claim_C2_content_hash (pyS ("d")) none 0 (pyS ("a")) (pyS ("b"))).2
        (by decide)⟩
/-! ## DuplicateDetector: near-duplicate check
(src/backend/pipeline/quality_checks.py, handler lines 171-192). -/

/-- One item returned by `query_recent_files(tenant_id, limit=50)`: a file
dict whose keys of interest are `fileId` and `simhash` (stored as
`str(int)` and read back with `int(...)`; modelled as the number itself,
`none` when the key is absent). -/
structure RecentFile where
  fileId : Option String
  simhash : Option Nat
deriving DecidableEq

/-- One near-duplicate match: `{"fileId": ..., "distance": ...}`. -/
structure NDMatch where
  fileId : Option String
  distance : Nat
deriving DecidableEq

/-- The near-duplicate finding dict (`evidence` holds the match list). -/
structure NDFinding where
  ftype : String
  severity : String
  evidence : List NDMatch
deriving DecidableEq

/-- The per-item step of the `near_dupes` accumulation of the
quality-checks handler: skip the file itself and files without a stored
fingerprint, keep a match at Hamming distance ≤ 3. -/
def nearDupeOf (simhash_value : Nat) (file_id : String) (item : RecentFile) :
    Option NDMatch :=
  if item.fileId = some file_id then none
  else
    match item.simhash with
    | none => none
    | some other_hash =>
      if hamming_distance simhash_value other_hash ≤ 3 then
        some ⟨item.fileId, hamming_distance simhash_value other_hash⟩
      else none

/-- The `near_dupes` list of the handler, in recent-files order. -/
def near_dupes (simhash_value : Nat) (file_id : String)
    (recent_files : List RecentFile) : List NDMatch :=
  recent_files.filterMap (nearDupeOf simhash_value file_id)

/-- The findings the near-duplicate check appends: one WARN
`NEAR_DUPLICATE` finding listing the first 5 matches when any match
exists, nothing otherwise (`if near_dupes:` / `near_dupes[:5]`). -/
def near_dup_findings (simhash_value : Nat) (file_id : String)
    (recent_files : List RecentFile) : List NDFinding :=
  let nd := near_dupes simhash_value file_id recent_files
  if nd = [] then []
  else [⟨"NEAR_DUPLICATE", "WARN", nd.take 5⟩]

theorem nearDupeOf_isSome (sv : Nat) (fid : String) (item : RecentFile) :
    (nearDupeOf sv fid item).isSome = true
      ↔ item.fileId ≠ some fid
        ∧ ∃ h, item.simhash = some h ∧ hamming_distance sv h ≤ 3 := by
  unfold nearDupeOf
  by_cases hf : item.fileId = some fid
  · simp [hf]
  · rcases hs : item.simhash with _ | h
    · simp [hf, hs]
    · by_cases hd : hamming_distance sv h ≤ 3
      · simp [hf, hs, hd]
      · simp [hf, hs, hd]

theorem near_dupes_ne_nil_iff (sv : Nat) (fid : String) (rf : List RecentFile) :
    near_dupes sv fid rf ≠ []
      ↔ ∃ item ∈ rf, item.fileId ≠ some fid
          ∧ ∃ h, item.simhash = some h ∧ hamming_distance sv h ≤ 3 := by
  unfold near_dupes
  rw [Ne, List.filterMap_eq_nil]
  constructor
  · intro hne
    push_neg at hne
    obtain ⟨item, hitem, hsome⟩ := hne
    refine ⟨item, hitem, ?_⟩
    rw [← nearDupeOf_isSome sv fid item]
    exact Option.isSome_iff_ne_none.mpr hsome
  · intro hex hall
    obtain ⟨item, hitem, hcond⟩ := hex
    have hs := (nearDupeOf_isSome sv fid item).mpr hcond
    rw [hall item hitem] at hs
    simp at hs

/-- C5: the near-duplicate check emits a finding iff some recent file other
than the file itself has a stored fingerprint at Hamming distance ≤ 3 from
the document's simhash; at most one `NEAR_DUPLICATE` finding is emitted per
run, it carries severity WARN, and its evidence lists at most 5 matches
(with their distances).  `recent_files` stands for the result of
`query_recent_files(tenant_id, limit=50)` — the tenant's most recent 50
files. -/
theorem claim_C5_near_duplicate :
    ∀ (simhash_value : Nat) (file_id : String) (recent_files : List RecentFile),
      ((near_dup_findings simhash_value file_id recent_files).length = 1
        ↔ ∃ item ∈ recent_files, item.fileId ≠ some file_id
            ∧ ∃ h, item.simhash = some h ∧ hamming_distance simhash_value h ≤ 3)
      ∧ ((near_dup_findings simhash_value file_id recent_files).length = 1
          ∨ (near_dup_findings simhash_value file_id recent_files).length = 0)
      ∧ (∀ f ∈ near_dup_findings simhash_value file_id recent_files,
          f.ftype = "NEAR_DUPLICATE" ∧ f.severity = "WARN"
            ∧ f.evidence.length ≤ 5) := by
  intro sv fid rf
  refine ⟨?_, ?_, ?_⟩
  · by_cases hnd : near_dupes sv fid rf = []
    · rw [← near_dupes_ne_nil_iff sv fid rf]
      unfold near_dup_findings
      simp [hnd]
    · rw [← near_dupes_ne_nil_iff sv fid rf]
      unfold near_dup_findings
      simp [hnd]
  · unfold near_dup_findings
    by_cases hnd : near_dupes sv fid rf = [] <;> simp [hnd]
  · intro f hf
    unfold near_dup_findings at hf
    by_cases hnd : near_dupes sv fid rf = []
    · simp [hnd] at hf
    · rw [if_neg hnd] at hf
      rw [List.mem_singleton] at hf
      subst hf
      refine ⟨rfl, rfl, ?_⟩
      simp only [List.length_take]
      omega

/-! ## VectorIndexer: embedding response parsing
(src/backend/pipeline/vector_ingest.py, embed_text lines 164-179). -/

/-- A JSON value, as far as `embed_text`'s response inspection needs:
either a list (so `isinstance(..., list)` holds) or some non-list value
(opaque, tagged by a number). -/
inductive PyVal where
  | list : List PyVal → PyVal
  | prim : Nat → PyVal

/-- The decoded response body: the three keys `embed_text` looks at
(`none` models an absent key). -/
structure EmbedBody where
  embedding : Option PyVal
  embeddings : Option PyVal
  vector : Option PyVal

/-- How the value extraction can fail: no recognized key at all
(`Exception("Unsupported embedding response format.")`), or
`body["embeddings"][0]` on an empty list (Python `IndexError`). -/
inductive EmbedErr where
  | unsupportedFormat
  | indexError
deriving DecidableEq

/-- The response-inspection logic of `embed_text`: return `embedding` if
present, else the first element of `embeddings` when it is a list, else
`vector`, else fail. -/
def embed_text_parse (body : EmbedBody) : Except EmbedErr PyVal :=
  match body.embedding with
  | some v => Except.ok v
  | none =>
    match body.embeddings with
    | some (PyVal.list (x :: _)) => Except.ok x
    | some (PyVal.list []) => Except.error EmbedErr.indexError
    | _ =>
      match body.vector with
      | some v => Except.ok v
      | none => Except.error EmbedErr.unsupportedFormat

/-- C8: the keys are inspected in priority order `embedding`, then
`embeddings[0]`, then `vector`, the first present one winning; a response
with none of the three keys is an unsupported-format error; in particular a
response containing only `vector` is accepted and its value used (also when
`embeddings` is present but not a list). -/
theorem claim_C8_embed_response_priority :
    (∀ (v : PyVal) (es vec : Option PyVal),
      embed_text_parse ⟨some v, es, vec⟩ = Except.ok v)
    ∧ (∀ (x : PyVal) (xs : List PyVal) (vec : Option PyVal),
      embed_text_parse ⟨none, some (PyVal.list (x :: xs)), vec⟩ = Except.ok x)
    ∧ (∀ v : PyVal, embed_text_parse ⟨none, none, some v⟩ = Except.ok v)
    ∧ (∀ (t : Nat) (v : PyVal),
      embed_text_parse ⟨none, some (PyVal.prim t), some v⟩ = Except.ok v)
    ∧ embed_text_parse ⟨none, none, none⟩ = Except.error EmbedErr.unsupportedFormat :=
  ⟨fun _ _ _ => rfl, fun _ _ _ => rfl, fun _ => rfl, fun _ _ => rfl, rfl⟩

/-! ## VectorIndexer: record normalization, batching and per-document
replace (src/backend/pipeline/vector_ingest.py, normalize_record lines
187-228 and handler lines 272-360; delete filter from
src/backend/pipeline/common/postgres.py delete_existing_doc). -/

/-- Python truthiness of an optional string: missing and `""` are falsy. -/
def truthyStr (o : Option Str) : Bool :=
  match o with
  | none => false
  | some s => !(s = [])

/-- Python `x.get(key) or default` for string values. -/
def pyOrStr (o : Option Str) (d : Str) : Str :=
  match o with
  | none => d
  | some s => if s = [] then d else s

/-- A raw chunk record as read from the chunks JSONL blob: every key the
normalization step looks at is optional (`none` models an absent key);
unrelated keys are carried through unchanged and are not modelled. -/
structure RawRec where
  chunkId : Option Str
  chunk_id : Option Str
  doc_id : Option Str
  source_uri : Option Str
  filename : Option Str
  page : Option Int
  chunk_index : Option Int
  text : Option Str
  created_at : Option Str
  embedding_model : Option Str
  acl : Option (List Str)
  content_hash : Option Str
deriving DecidableEq

/-- A normalized record, after `normalize_record` filled every defaulted
field (the `metadata`/`chunkId` keys have been dropped/promoted). -/
structure NormRec where
  tenant_id : Str
  dataset_id : Str
  doc_id : Str
  source_uri : Str
  filename : Str
  page : Option Int
  chunk_id : Str
  chunk_index : Int
  text : Str
  created_at : Str
  embedding_model : Str
  acl : List Str
  content_hash : Str
deriving DecidableEq

/-- `normalize_record` from vector_ingest.py: promote a truthy legacy
`chunkId` into a missing/empty `chunk_id`, fill the context defaults
(`or` for strings, plain `.get(key, default)` for `chunk_index`, keep
`page` as-is), then synthesize `chunk_id` and `content_hash` when still
falsy, via the ContentAddressor. -/
def normalize_record (r : RawRec) (tenant_id dataset_id doc_id source_uri
    filename : Str) (chunk_index : Int) (created_at embedding_model : Str) :
    NormRec :=
  let chunk_id0 : Option Str :=
    if truthyStr r.chunkId && !truthyStr r.chunk_id then r.chunkId else r.chunk_id
  let doc_idN := pyOrStr r.doc_id doc_id
  let chunk_indexN := r.chunk_index.getD chunk_index
  let pageN := r.page
  let textN := r.text.getD []
  let chunk_idN :=
    if truthyStr chunk_id0 then chunk_id0.getD []
    else chunkIdStr doc_idN pageN chunk_indexN
  let content_hashN :=
    if truthyStr r.content_hash then r.content_hash.getD []
    else compute_content_hash doc_idN pageN chunk_indexN textN
  ⟨tenant_id, dataset_id, doc_idN,
   pyOrStr r.source_uri source_uri,
   pyOrStr r.filename filename,
   pageN, chunk_idN, chunk_indexN, textN,
   pyOrStr r.created_at created_at,
   pyOrStr r.embedding_model embedding_model,
   r.acl.getD [],
   content_hashN⟩

/-- The record stream the handler feeds into batching: enumerate all
records of the chunks file (the index counts skipped records too), drop
records whose text is empty or whitespace-only, normalize the rest. -/
def ingestRecords (records : List RawRec) (tenant_id dataset_id doc_id
    source_uri filename created_at embedding_model : Str) : List NormRec :=
  records.enum.filterMap (fun p =>
    if pyStrip ((p.2).text.getD []) = [] then none
    else some (normalize_record p.2 tenant_id dataset_id doc_id source_uri
      filename (Int.ofNat p.1) created_at embedding_model))

/-- The handler's batch accumulation: append each record to the current
batch and flush whenever `len(batch) >= batch_size`; the final partial
batch is flushed at the end. -/
def batchAccum {α : Type} (bs : Nat) : List α → List α → List (List α)
  | [], [] => []
  | [], c :: cs => [c :: cs]
  | r :: rest, cur =>
    let cur2 := cur ++ [r]
    if bs ≤ cur2.length then cur2 :: batchAccum bs rest []
    else batchAccum bs rest cur2

/-- The list of embedding batches, in order. -/
def ingestBatches {α : Type} (bs : Nat) (recs : List α) : List (List α) :=
  batchAccum bs recs []

/-- Batch sizes, computed at the level of counts: `n` records still to
come, `c` records in the current batch. -/
def batchSizesAux (bs : Nat) : Nat → Nat → List Nat
  | 0, c => if c = 0 then [] else [c]
  | n + 1, c => if bs ≤ c + 1 then (c + 1) :: batchSizesAux bs n 0
                else batchSizesAux bs n (c + 1)

theorem batchAccum_sizes {α : Type} (bs : Nat) :
    ∀ (l cur : List α),
      (batchAccum bs l cur).map List.length = batchSizesAux bs l.length cur.length := by
  intro l
  induction l with
  | nil =>
    intro cur
    rcases cur with _ | ⟨c, cs⟩
    · simp [batchAccum, batchSizesAux]
    · simp [batchAccum, batchSizesAux]
  | cons r rest ih =>
    intro cur
    simp only [batchAccum, List.length_cons, batchSizesAux]
    have hlen : (cur ++ [r]).length = cur.length + 1 := by simp
    by_cases hb : bs ≤ cur.length + 1
    · rw [if_pos (by omega : bs ≤ (cur ++ [r]).length), if_pos hb]
      simp [ih, hlen]
    · rw [if_neg (by omega : ¬ bs ≤ (cur ++ [r]).length), if_neg hb]
      rw [ih (cur ++ [r]), hlen]

theorem batchAccum_join {α : Type} (bs : Nat) :
    ∀ (l cur : List α), (batchAccum bs l cur).join = cur ++ l := by
  intro l
  induction l with
  | nil =>
    intro cur
    rcases cur with _ | ⟨c, cs⟩ <;> simp [batchAccum]
  | cons r rest ih =>
    intro cur
    simp only [batchAccum]
    by_cases hb : bs ≤ (cur ++ [r]).length
    · rw [if_pos hb]
      simp [ih]
    · rw [if_neg hb]
      rw [ih (cur ++ [r])]
      simp

/-- The delete-by-key filter used for per-document replace: matches the
`(tenant_id, dataset_id, doc_id)` triple (OpenSearch `_delete_by_query`
term filter / Postgres `DELETE ... WHERE` in postgres.py). -/
def hasDocKey (t d doc : Str) (r : NormRec) : Bool :=
  decide (r.tenant_id = t) && decide (r.dataset_id = d) && decide (r.doc_id = doc)

/-- `delete_existing_doc`: remove every stored chunk of the document. -/
def delete_existing_doc (store : List NormRec) (t d doc : Str) : List NormRec :=
  store.filter (fun r => !hasDocKey t d doc r)

/-- The chunk-store operations the ingestion handler issues, in order. -/
inductive StoreOp where
  | deleteDoc : Str → Str → Str → StoreOp
  | insertBatch : List NormRec → StoreOp

/-- Effect of one store operation on the stored chunk set (bulk insert uses
append-only index actions). -/
def applyOp (store : List NormRec) : StoreOp → List NormRec
  | StoreOp.deleteDoc t d doc => delete_existing_doc store t d doc
  | StoreOp.insertBatch recs => store ++ recs

/-- Execute a run's operations against a store state. -/
def runOps (store : List NormRec) (ops : List StoreOp) : List NormRec :=
  ops.foldl applyOp store

/-- The store-op trace of one `vector_ingest.handler` run: a single
delete of the `(tenantId, datasetId, fileId)` key followed by the batch
inserts — the delete strictly precedes every insert. -/
def handlerStoreOps (records : List RawRec) (tenant_id dataset_id file_id
    source_uri filename created_at embedding_model : Str) (bs : Nat) :
    List StoreOp :=
  StoreOp.deleteDoc tenant_id dataset_id file_id ::
    (ingestBatches bs (ingestRecords records tenant_id dataset_id file_id
      source_uri filename created_at embedding_model)).map StoreOp.insertBatch

theorem runOps_insertBatches (batches : List (List NormRec)) :
    ∀ s : List NormRec,
      runOps s (batches.map StoreOp.insertBatch) = s ++ batches.join := by
  induction batches with
  | nil => intro s; simp [runOps]
  | cons b rest ih =>
    intro s
    simp only [List.map_cons, runOps, List.foldl_cons, applyOp]
    have := ih (s ++ b)
    simp only [runOps] at this
    rw [this]
    simp [List.append_assoc]

theorem mem_enumFrom_snd {α : Type} :
    ∀ (l : List α) (n : Nat) (p : Nat × α), p ∈ List.enumFrom n l → p.2 ∈ l := by
  intro l
  induction l with
  | nil => intro n p hp; simp [List.enumFrom] at hp
  | cons a rest ih =>
    intro n p hp
    simp only [List.enumFrom, List.mem_cons] at hp
    rcases hp with hp | hp
    · subst hp; exact List.mem_cons_self a rest
    · exact List.mem_cons_of_mem a (ih (n + 1) p hp)

theorem ingestRecords_mem (records : List RawRec)
    (t d doc su fn ca em : Str) :
    ∀ nr ∈ ingestRecords records t d doc su fn ca em,
      ∃ r ∈ records, ∃ i : Nat,
        pyStrip (r.text.getD []) ≠ []
        ∧ nr = normalize_record r t d doc su fn (Int.ofNat i) ca em := by
  intro nr hnr
  unfold ingestRecords at hnr
  rw [List.mem_filterMap] at hnr
  obtain ⟨p, hp, hf⟩ := hnr
  by_cases hcond : pyStrip ((p.2).text.getD []) = []
  · simp [hcond] at hf
  · simp only [hcond, if_neg, if_false] at hf
    have hmem : p.2 ∈ records := mem_enumFrom_snd records 0 p hp
    exact ⟨p.2, hmem, p.1, hcond, (Option.some.injEq _ _ ▸ hf).symm⟩

/-- C7: records are embedded in fixed-size batches in input order — the
batches concatenate back to exactly the normalized record stream; with 120
records to embed and batch size 50 there are exactly 3 batches of sizes
50, 50, 20, in that order; and records whose text is empty or
whitespace-only are dropped before batching, so every batched (hence
embedded and stored) record has non-whitespace text. -/
theorem claim_C7_batching :
    (∀ (bs : Nat) (recs : List NormRec), (ingestBatches bs recs).join = recs)
    ∧ (∀ recs : List NormRec, recs.length = 120 →
        (ingestBatches 50 recs).map List.length = [50, 50, 20])
    ∧ (∀ (records : List RawRec) (t d doc su fn ca em : Str),
        ∀ nr ∈ ingestRecords records t d doc su fn ca em, pyStrip nr.text ≠ []) := by
  refine ⟨?_, ?_, ?_⟩
  · intro bs recs
    simpa using batchAccum_join bs recs []
  · intro recs hlen
    unfold ingestBatches
    rw [batchAccum_sizes 50 recs []]
    simp only [hlen, List.length_nil]
    decide
  · intro records t d doc su fn ca em nr hnr
    obtain ⟨r, _, i, hcond, heq⟩ :=
      ingestRecords_mem records t d doc su fn ca em nr hnr
    subst heq
    simpa [normalize_record] using hcond

/-- A concrete normalized record for witnesses. -/
def exNormRec : NormRec :=
  ⟨[], [], [], [], [], none, [], 0, ['x'], [], [], [], []⟩

/-- Witness for C7: 120 concrete records produce batch sizes 50, 50, 20. -/
theorem claim_C7_batching_witness :
    (List.replicate 120 exNormRec).length = 120
    ∧ (ingestBatches 50 (List.replicate 120 exNormRec)).map List.length
        = [50, 50, 20] :=
  ⟨by decide, claim_C7_batching.2.1 (List.replicate 120 exNormRec) (by decide)⟩

/-- C6: per-document replace — the handler deletes every stored chunk of
`(tenantId, datasetId, fileId)` before inserting the run's batches (the
delete is the first store operation in `handlerStoreOps`); hence, whenever
the run's records address the handler's own document (their `doc_id` is
absent, empty or equal to `fileId`), the stored chunk set for that key
after the run is exactly the run's normalized record list — reprocessing
with fewer chunks leaves no orphans, whatever the previous store contents
were. -/
theorem claim_C6_document_replace :
    ∀ (store0 : List NormRec) (records : List RawRec)
      (t d fid su fn ca em : Str) (bs : Nat),
      (∀ r ∈ records, pyOrStr r.doc_id fid = fid) →
      (runOps store0 (handlerStoreOps records t d fid su fn ca em bs)).filter
          (hasDocKey t d fid)
        = ingestRecords records t d fid su fn ca em := by
  intro store0 records t d fid su fn ca em bs hdoc
  unfold handlerStoreOps runOps
  rw [List.foldl_cons]
  have h1 : applyOp store0 (StoreOp.deleteDoc t d fid)
      = delete_existing_doc store0 t d fid := rfl
  rw [h1]
  have h2 := runOps_insertBatches
    (ingestBatches bs (ingestRecords records t d fid su fn ca em))
    (delete_existing_doc store0 t d fid)
  unfold runOps at h2
  rw [h2]
  rw [claim_C7_batching.1 bs]
  rw [List.filter_append]
  have hdel : (delete_existing_doc store0 t d fid).filter (hasDocKey t d fid)
      = [] := by
    unfold delete_existing_doc
    rw [List.filter_filter]
    have hfalse : ∀ r : NormRec,
        (hasDocKey t d fid r && !hasDocKey t d fid r) = false := fun r =>
      Bool.and_not_self _
    simp [hfalse]
  rw [hdel, List.nil_append]
  apply List.filter_eq_self.mpr
  intro nr hnr
  obtain ⟨r, hr, i, _, hekey⟩ :=
    ingestRecords_mem records t d fid su fn ca em nr hnr
  subst hekey
  have hdo : pyOrStr r.doc_id fid = fid := hdoc r hr
  simp [hasDocKey, normalize_record, hdo]

/-- A concrete raw record (chunk id and content hash already present, text
non-empty, no doc id of its own) for witnesses. -/
def exRawRec : RawRec :=
  ⟨none, some ['c'], none, none, none, none, none, some ['x'],
   none, none, none, some ['h']⟩

/-- An old stored chunk under the example document key. -/
def exOldRec : NormRec :=
  ⟨['t'], ['d'], ['f'], [], [], none, ['o'], 0, ['y'], [], [], [], []⟩

/-- Witness for C6: one stale chunk for the key and one foreign chunk; after
the run the key holds exactly the run's single normalized record. -/
theorem claim_C6_document_replace_witness :
    (∀ r ∈ [exRawRec], pyOrStr r.doc_id ['f'] = ['f'])
    ∧ (runOps [exOldRec, exNormRec]
        (handlerStoreOps [exRawRec] ['t'] ['d'] ['f'] [] [] [] [] 50)).filter
          (hasDocKey ['t'] ['d'] ['f'])
        = ingestRecords [exRawRec] ['t'] ['d'] ['f'] [] [] [] [] :=
  ⟨by decide,
   claim_C6_document_replace [exOldRec, exNormRec] [exRawRec]
     ['t'] ['d'] ['f'] [] [] [] [] 50 (by decide)⟩

/-- C10: a missing page (`None`) and page `0` are indistinguishable at the
content-addressing interface — `page or 0` collapses both to `0` — for the
pure id/hash functions, for `build_chunk_record`, and for ingestion-time
`normalize_record` alike (only the `chunkId`/`contentHash` outputs are in
scope; the stored `page` field itself keeps the given value). -/
theorem claim_C10_page_none_vs_zero :
    (∀ (doc_id : Str) (chunk_index : Int) (text : Str),
      chunkIdStr doc_id none chunk_index = chunkIdStr doc_id (some 0) chunk_index
      ∧ compute_content_hash doc_id none chunk_index text
          = compute_content_hash doc_id (some 0) chunk_index text)
    ∧ (∀ (tenant_id dataset_id doc_id source_uri filename : Str)
        (chunk_index : Int) (text : Str) (created_at embedding_model : Str)
        (acl : Option (List Str)),
        (build_chunk_record tenant_id dataset_id doc_id source_uri filename
          none chunk_index text created_at embedding_model acl).chunk_id
          = (build_chunk_record tenant_id dataset_id doc_id source_uri filename
            (some 0) chunk_index text created_at embedding_model acl).chunk_id
        ∧ (build_chunk_record tenant_id dataset_id doc_id source_uri filename
            none chunk_index text created_at embedding_model acl).content_hash
          = (build_chunk_record tenant_id dataset_id doc_id source_uri filename
            (some 0) chunk_index text created_at embedding_model acl).content_hash)
    ∧ (∀ (r : RawRec) (t d doc su fn : Str) (ci : Int) (ca em : Str),
        (normalize_record { r with page := none } t d doc su fn ci ca em).chunk_id
          = (normalize_record { r with page := some 0 } t d doc su fn ci ca em).chunk_id
        ∧ (normalize_record { r with page := none } t d doc su fn ci ca em).content_hash
          = (normalize_record { r with page := some 0 } t d doc su fn ci ca em).content_hash) := by
  refine ⟨fun doc_id ci text => ⟨rfl, rfl⟩,
    fun tenant_id dataset_id doc_id su fn ci text ca em acl => ⟨rfl, rfl⟩,
    fun r t d doc su fn ci ca em => ⟨?_, ?_⟩⟩
  · simp only [normalize_record]
    have h : chunkIdStr (pyOrStr r.doc_id doc) none (r.chunk_index.getD ci)
        = chunkIdStr (pyOrStr r.doc_id doc) (some 0) (r.chunk_index.getD ci) := rfl
    simp [h]
  · simp only [normalize_record]
    have h : compute_content_hash (pyOrStr r.doc_id doc) none
          (r.chunk_index.getD ci) (r.text.getD [])
        = compute_content_hash (pyOrStr r.doc_id doc) (some 0)
          (r.chunk_index.getD ci) (r.text.getD []) := rfl
    simp [h]

/-! ## TextSegmenter (src/backend/pipeline/common/chunking.py) -/

/-- ASCII decimal digit (`\d` on the documents in scope). -/
def isDigitC (c : Char) : Bool := '0' ≤ c && c ≤ '9'

/-- ASCII letter, case-insensitive (`[A-Z]` under `re.IGNORECASE`). -/
def isLetterC (c : Char) : Bool := 'a' ≤ c.toLower && c.toLower ≤ 'z'

/-- `[A-Z0-9]` under `re.IGNORECASE`. -/
def isAlphaNumC (c : Char) : Bool := isLetterC c || isDigitC c

/-- Case-insensitive literal prefix match; returns the rest of the input.
The pattern is given lowercase. -/
def matchLitCi : Str → Str → Option Str
  | [], s => some s
  | _ :: _, [] => none
  | p :: ps, c :: cs => if c.toLower = p then matchLitCi ps cs else none

/-- `\s+X` for a character class `X` disjoint from whitespace: at least one
whitespace character, then a class character (the rest of the pattern
`X+` needs nothing further for a prefix match). -/
def wsThenClass (cls : Char → Bool) (r : Str) : Bool :=
  match r with
  | [] => false
  | c :: cs =>
    isPySpace c &&
      (match cs.dropWhile isPySpace with
       | [] => false
       | d :: _ => cls d)

/-- `^KW\s+X+` with IGNORECASE — the shape of the CLAUSE/SECTION/PART/
APPENDIX/SCHEDULE/ATTACHMENT boundary patterns. -/
def patKw (kw : String) (cls : Char → Bool) (line : Str) : Bool :=
  match matchLitCi (pyS kw) line with
  | some r => wsThenClass cls r
  | none => false

/-- `\d+`: at least one digit, consuming the whole run. -/
def digits1 : Str → Option Str
  | [] => none
  | c :: cs => if isDigitC c then some (cs.dropWhile isDigitC) else none

/-- A literal dot. -/
def expectDot : Str → Option Str
  | '.' :: r => some r
  | _ => none

/-- `(?:\.\d+)*`, greedy (dot and digit are disjoint from what may follow,
so the greedy match is the regex match). -/
def dotDigitsStar : Nat → Str → Str
  | 0, s => s
  | fuel + 1, s =>
    match expectDot s with
    | none => s
    | some r =>
      match digits1 r with
      | none => s
      | some r2 => dotDigitsStar fuel r2

/-- `^\d+\.\d+(?:\.\d+)*\s+[A-Z]` — the "1.2.3 Title" pattern. -/
def patNumberedTitle (line : Str) : Bool :=
  match digits1 line with
  | none => false
  | some r1 =>
    match expectDot r1 with
    | none => false
    | some r2 =>
      match digits1 r2 with
      | none => false
      | some r3 => wsThenClass isLetterC (dotDigitsStar r3.length r3)

/-- `^[A-Z]\d+\.\d+` — the "A1.2" spec format pattern. -/
def patSpecFormat (line : Str) : Bool :=
  match line with
  | [] => false
  | c :: cs =>
    isLetterC c &&
      (match digits1 cs with
       | none => false
       | some r1 =>
         match expectDot r1 with
         | none => false
         | some r2 => (digits1 r2).isSome)

/-- `is_section_boundary(line)`: strip the line, then try the eight
`SECTION_BOUNDARY_PATTERNS` (all anchored, IGNORECASE). -/
def is_section_boundary (line : Str) : Bool :=
  let l := pyStrip line
  patKw ("clause") isDigitC l || patKw ("section") isDigitC l
    || patKw ("part") isAlphaNumC l || patKw ("appendix") isAlphaNumC l
    || patKw ("schedule") isAlphaNumC l || patKw ("attachment") isAlphaNumC l
    || patNumberedTitle l || patSpecFormat l

/-- Python `text.split("\n")` (keeps empty pieces). -/
def splitOnNl : Str → List Str
  | [] => [[]]
  | c :: cs =>
    if c = '\n' then [] :: splitOnNl cs
    else
      match splitOnNl cs with
      | [] => [[c]]
      | w :: ws => (c :: w) :: ws

/-- Python `slice.rfind(" ")`: index of the last space, `-1` if none. -/
def rfindSpaceAux : Str → Nat → Int → Int
  | [], _, best => best
  | c :: cs, i, best =>
    rfindSpaceAux cs (i + 1) (if c = ' ' then Int.ofNat i else best)

/-- `text.rfind(" ")`. -/
def pyRfindSpace (s : Str) : Int := rfindSpaceAux s 0 (-1)

/-- `i + 1 < len(lines) and is_section_boundary(lines[i + 1])`: does a
section-boundary line follow? -/
def nextIsBoundary : List Str → Bool
  | [] => false
  | next :: _ => is_section_boundary next

/-- The line scan of `find_best_split_point`: accumulate line lengths
(+1 for the newline), break once the next line would pass `max_len`,
return the cut position just before a section-boundary line. -/
def fbspLoop (max_len : Nat) : List Str → Nat → Option Nat
  | [], _ => none
  | line :: rest, acc =>
    if max_len < acc + (line.length + 1) then none
    else if nextIsBoundary rest then some (acc + line.length)
    else fbspLoop max_len rest (acc + (line.length + 1))

/-- `find_best_split_point(text, max_len)`: whole text when short enough;
otherwise cut before a section boundary, else at the last space after 60%
of `max_len` (`last_space > max_len * 0.6`; for the integer ranges in
scope the float comparison coincides with the exact rational one,
`5 * last_space > 3 * max_len`), else hard cut at `max_len`. -/
def find_best_split_point (text : Str) (max_len : Nat) : Nat :=
  if text.length ≤ max_len then text.length
  else
    match fbspLoop max_len (splitOnNl (text.take max_len)) 0 with
    | some n => n
    | none =>
      let last_space := pyRfindSpace (text.take max_len)
      if 3 * (max_len : Int) < 5 * last_space then last_space.toNat
      else max_len

/-- Python `t[-n:]` for `n > 0`: the suffix of length at most `n`. -/
def takeLast (n : Nat) (s : Str) : Str := s.drop (s.length - n)

/-- The loop body of `split_long_text`, with explicit fuel (the Python
`while` loop does not terminate when the split point makes no progress,
e.g. a text starting with an empty line directly followed by a section
boundary; on every input where the Python loop terminates, fuel
`text.length + 1` makes this function agree with it). -/
def split_long_text_go (text : Str) (max_len : Nat) (respect_sections : Bool) :
    Nat → Nat → List Str → List Str
  | 0, _, segments => segments
  | fuel + 1, start, segments =>
    if text.length ≤ start then segments
    else
      let remaining := text.drop start
      if remaining.length ≤ max_len then
        let seg := pyStrip remaining
        if seg = [] then segments else segments ++ [seg]
      else
        let e :=
          if respect_sections then start + find_best_split_point remaining max_len
          else
            let e0 := min (start + max_len) text.length
            if e0 < text.length then
              let last_space := pyRfindSpace ((text.drop start).take max_len)
              if 3 * (max_len : Int) < 5 * last_space then start + last_space.toNat
              else e0
            else e0
        let seg := pyStrip ((text.drop start).take (e - start))
        split_long_text_go text max_len respect_sections fuel e
          (if seg = [] then segments else segments ++ [seg])

/-- `split_long_text(text, max_len, respect_sections)`. -/
def split_long_text (text : Str) (max_len : Nat) (respect_sections : Bool) :
    List Str :=
  split_long_text_go text max_len respect_sections (text.length + 1) 0 []

/-- One input page: `{"pageNumber": ..., "text": ...}` (a missing text key
is the empty text). -/
structure Page where
  pageNumber : Int
  text : Str
deriving DecidableEq

/-- One output chunk: `{"text": ..., "pageRange": ..., "length": ...}`. -/
structure Chunk where
  text : Str
  pageRange : Int × Int
  length : Nat
deriving DecidableEq

/-- Python `min` on a non-empty list of ints (`[]` is unreachable at all
call sites, guarded by the code). -/
def listMinI : List Int → Int
  | [] => 0
  | x :: xs => xs.foldl min x

/-- Python `max` on a non-empty list of ints. -/
def listMaxI : List Int → Int
  | [] => 0
  | x :: xs => xs.foldl max x

/-- The pre-splitting pass of `chunk_pages`: strip each page's text, skip
empty pages, keep short pages whole, pre-split long pages. -/
def pagesToSegments (pages : List Page) (max_len : Nat) (rs : Bool) :
    List (Int × Str) :=
  (pages.map (fun pg =>
    let t := pyStrip pg.text
    if t = [] then []
    else if t.length ≤ max_len then [(pg.pageNumber, t)]
    else (split_long_text t max_len rs).map (fun s => (pg.pageNumber, s)))).join

/-- The greedy-accumulation state of `chunk_pages`. -/
structure ChunkAcc where
  current_text : Str
  current_pages : List Int
  chunks : List Chunk
deriving DecidableEq

/-- The overlap window carried into the next buffer on a flush:
`current_text[-overlap:]`, stripped, then trimmed to the room left beside
the new segment (`available = max_len - len(segment) - 1`; dropped
entirely when no room is left). -/
def overlapCarry (max_len overlap : Nat) (cur seg : Str) : Str :=
  let ot0 := if 0 < overlap then takeLast overlap cur else []
  let ot1 := pyStrip ot0
  if ot1 = [] then ot1
  else
    let available : Int := (max_len : Int) - seg.length - 1
    if available ≤ 0 then []
    else if available < (ot1.length : Int) then takeLast available.toNat ot1
    else ot1

/-- The buffer that starts after a flush: the new segment alone, or the
overlap window, a space and the segment, stripped. -/
def newBufferAfterEmit (max_len overlap : Nat) (cur seg : Str) : Str :=
  let ot2 := overlapCarry max_len overlap cur seg
  if ot2 = [] then seg else pyStrip (ot2 ++ ' ' :: seg)

/-- One step of the greedy accumulation: start a buffer, or flush it when
appending would pass `max_len` while the buffer already reached `min_len`
(carrying a word-trimmed overlap window), or append. -/
def chunkStep (min_len max_len overlap : Nat) (acc : ChunkAcc)
    (seg : Int × Str) : ChunkAcc :=
  let page_number := seg.1
  let segment_text := seg.2
  if acc.current_text = [] then
    ⟨segment_text, [page_number], acc.chunks⟩
  else
    let prospective := acc.current_text.length + 1 + segment_text.length
    if max_len < prospective ∧ min_len ≤ acc.current_text.length then
      let chunk : Chunk :=
        ⟨acc.current_text,
         (listMinI acc.current_pages, listMaxI acc.current_pages),
         acc.current_text.length⟩
      let new_pages :=
        match acc.current_pages.getLast? with
        | some lastPage => [lastPage, page_number]
        | none => [page_number]
      ⟨newBufferAfterEmit max_len overlap acc.current_text segment_text,
       new_pages, acc.chunks ++ [chunk]⟩
    else
      ⟨pyStrip (acc.current_text ++ ' ' :: segment_text),
       if page_number ∈ acc.current_pages then acc.current_pages
       else acc.current_pages ++ [page_number],
       acc.chunks⟩

/-- `chunk_pages(pages, min_len, max_len, overlap, respect_sections)`. -/
def chunk_pages (pages : List Page) (min_len max_len overlap : Nat)
    (respect_sections : Bool) : List Chunk :=
  let segments := pagesToSegments pages max_len respect_sections
  let acc := segments.foldl (chunkStep min_len max_len overlap) ⟨[], [], []⟩
  if acc.current_text = [] then acc.chunks
  else
    acc.chunks ++
      [⟨acc.current_text,
        (if acc.current_pages = [] then (0, 0)
         else (listMinI acc.current_pages, listMaxI acc.current_pages)),
        acc.current_text.length⟩]

theorem dropWhile_len_le (p : Char → Bool) (l : List Char) :
    (l.dropWhile p).length ≤ l.length := by
  induction l with
  | nil => simp
  | cons c cs ih => by_cases h : p c <;> simp [List.dropWhile, h] <;> omega

theorem pyStrip_len_le (s : Str) : (pyStrip s).length ≤ s.length := by
  unfold pyStrip
  have h1 := dropWhile_len_le isPySpace s
  have h2 := dropWhile_len_le isPySpace (s.dropWhile isPySpace).reverse
  simp only [List.length_reverse] at h1 h2 ⊢
  omega

theorem takeLast_len_le (n : Nat) (s : Str) : (takeLast n s).length ≤ n := by
  unfold takeLast
  simp only [List.length_drop]
  omega

theorem overlapCarry_spec (max_len overlap : Nat) (cur seg : Str) :
    overlapCarry max_len overlap cur seg = []
    ∨ (0 < (max_len : Int) - seg.length - 1
       ∧ ((overlapCarry max_len overlap cur seg).length : Int)
           ≤ (max_len : Int) - seg.length - 1) := by
  unfold overlapCarry
  by_cases h1 : pyStrip (if 0 < overlap then takeLast overlap cur else []) = []
  · left
    simp [h1]
  · rw [if_neg h1]
    by_cases h2 : ((max_len : Int) - seg.length - 1) ≤ 0
    · left
      rw [if_pos h2]
    · right
      refine ⟨by omega, ?_⟩
      rw [if_neg h2]
      by_cases h3 : ((max_len : Int) - seg.length - 1)
          < ((pyStrip (if 0 < overlap then takeLast overlap cur else [])).length : Int)
      · rw [if_pos h3]
        have h4 := takeLast_len_le ((max_len : Int) - seg.length - 1).toNat
          (pyStrip (if 0 < overlap then takeLast overlap cur else []))
        omega
      · rw [if_neg h3]
        omega

theorem newBufferAfterEmit_len (max_len overlap : Nat) (cur seg : Str)
    (hseg : seg.length ≤ max_len) :
    (newBufferAfterEmit max_len overlap cur seg).length ≤ max_len := by
  unfold newBufferAfterEmit
  by_cases h0 : overlapCarry max_len overlap cur seg = []
  · simp [h0, hseg]
  · rw [if_neg h0]
    rcases overlapCarry_spec max_len overlap cur seg with h | ⟨hpos, hlen⟩
    · exact absurd h h0
    · have hb := pyStrip_len_le (overlapCarry max_len overlap cur seg ++ ' ' :: seg)
      simp only [List.length_append, List.length_cons] at hb
      omega

theorem chunkStep_bound (min_len max_len overlap : Nat) (acc : ChunkAcc)
    (seg : Int × Str) (hseg : seg.2.length ≤ max_len)
    (h1 : ∀ c ∈ acc.chunks, c.length ≤ min_len + max_len)
    (h2 : acc.current_text.length ≤ min_len + max_len) :
    (∀ c ∈ (chunkStep min_len max_len overlap acc seg).chunks,
        c.length ≤ min_len + max_len)
    ∧ (chunkStep min_len max_len overlap acc seg).current_text.length
        ≤ min_len + max_len := by
  unfold chunkStep
  by_cases hc0 : acc.current_text = []
  · rw [if_pos hc0]
    exact ⟨h1, by simpa using le_trans hseg (Nat.le_add_left _ _)⟩
  · rw [if_neg hc0]
    by_cases hcond : max_len < acc.current_text.length + 1 + seg.2.length
        ∧ min_len ≤ acc.current_text.length
    · rw [if_pos hcond]
      refine ⟨?_, ?_⟩
      · intro c hcm
        simp only [List.mem_append, List.mem_singleton] at hcm
        rcases hcm with hcm | hcm
        · exact h1 c hcm
        · subst hcm
          simpa using h2
      · have hnb := newBufferAfterEmit_len max_len overlap acc.current_text seg.2 hseg
        simpa using le_trans hnb (Nat.le_add_left _ _)
    · rw [if_neg hcond]
      refine ⟨fun c hcm => h1 c hcm, ?_⟩
      have hb := pyStrip_len_le (acc.current_text ++ ' ' :: seg.2)
      simp only [List.length_append, List.length_cons] at hb ⊢
      push_neg at hcond
      by_cases hml : max_len < acc.current_text.length + 1 + seg.2.length
      · have hlt := hcond hml
        omega
      · omega

theorem foldl_chunkStep_bound (min_len max_len overlap : Nat) :
    ∀ (segs : List (Int × Str)) (acc : ChunkAcc),
      (∀ s ∈ segs, s.2.length ≤ max_len) →
      (∀ c ∈ acc.chunks, c.length ≤ min_len + max_len) →
      acc.current_text.length ≤ min_len + max_len →
      (∀ c ∈ (segs.foldl (chunkStep min_len max_len overlap) acc).chunks,
          c.length ≤ min_len + max_len)
      ∧ (segs.foldl (chunkStep min_len max_len overlap) acc).current_text.length
          ≤ min_len + max_len := by
  intro segs
  induction segs with
  | nil => intro acc _ h1 h2; exact ⟨h1, h2⟩
  | cons s rest ih =>
    intro acc hsegs h1 h2
    have hstep := chunkStep_bound min_len max_len overlap acc s
      (hsegs s (List.mem_cons_self _ _)) h1 h2
    simpa using ih (chunkStep min_len max_len overlap acc s)
      (fun t ht => hsegs t (List.mem_cons_of_mem _ ht)) hstep.1 hstep.2

theorem fbspLoop_le (max_len : Nat) :
    ∀ (lines : List Str) (acc n : Nat),
      fbspLoop max_len lines acc = some n → n < max_len := by
  intro lines
  induction lines with
  | nil => intro acc n h; simp [fbspLoop] at h
  | cons line rest ih =>
    intro acc n h
    unfold fbspLoop at h
    by_cases hb : max_len < acc + (line.length + 1)
    · rw [if_pos hb] at h
      exact absurd h (by simp)
    · rw [if_neg hb] at h
      by_cases hs : nextIsBoundary rest = true
      · rw [if_pos hs] at h
        have := Option.some.injEq _ _ ▸ h
        omega
      · rw [if_neg hs] at h
        exact ih (acc + (line.length + 1)) n h

theorem rfindSpaceAux_lt :
    ∀ (s : Str) (i : Nat) (best : Int), best < (i : Int) →
      rfindSpaceAux s i best < (i : Int) + s.length := by
  intro s
  induction s with
  | nil => intro i best h; simpa [rfindSpaceAux] using h
  | cons c cs ih =>
    intro i best h
    unfold rfindSpaceAux
    have hnext : (if c = ' ' then Int.ofNat i else best) < ((i + 1 : Nat) : Int) := by
      by_cases hc : c = ' ' <;> simp [hc] <;> omega
    have := ih (i + 1) (if c = ' ' then Int.ofNat i else best) hnext
    simp only [List.length_cons]
    push_cast at this ⊢
    omega

theorem pyRfindSpace_lt (s : Str) : pyRfindSpace s < (s.length : Int) := by
  have := rfindSpaceAux_lt s 0 (-1) (by omega)
  simpa [pyRfindSpace] using this

theorem fbsp_le (text : Str) (max_len : Nat) (h : max_len < text.length) :
    find_best_split_point text max_len ≤ max_len := by
  unfold find_best_split_point
  rw [if_neg (by omega)]
  cases hloop : fbspLoop max_len (splitOnNl (text.take max_len)) 0 with
  | some n =>
    simp only [hloop]
    have := fbspLoop_le max_len (splitOnNl (text.take max_len)) 0 n hloop
    omega
  | none =>
    simp only [hloop]
    have hlt := pyRfindSpace_lt (text.take max_len)
    have hlen : (text.take max_len).length = max_len := by
      simp only [List.length_take]
      omega
    rw [hlen] at hlt
    by_cases hb : 3 * (max_len : Int) < 5 * pyRfindSpace (text.take max_len)
    · rw [if_pos hb]
      omega
    · rw [if_neg hb]

theorem toNat_rfind_le (text : Str) (start max_len : Nat) :
    (pyRfindSpace ((text.drop start).take max_len)).toNat ≤ max_len := by
  have hlt := pyRfindSpace_lt ((text.drop start).take max_len)
  have hlen : (((text.drop start).take max_len).length : Int) ≤ (max_len : Int) := by
    simp only [List.length_take]
    push_cast
    omega
  omega

theorem split_long_text_go_le (text : Str) (max_len : Nat) (rs : Bool) :
    ∀ (fuel start : Nat) (segments : List Str),
      (∀ s ∈ segments, s.length ≤ max_len) →
      ∀ s ∈ split_long_text_go text max_len rs fuel start segments,
        s.length ≤ max_len := by
  intro fuel
  induction fuel with
  | zero => intro start segments hsegs s hs; exact hsegs s hs
  | succ fuel ih =>
    intro start segments hsegs s hs
    unfold split_long_text_go at hs
    by_cases hstart : text.length ≤ start
    · rw [if_pos hstart] at hs
      exact hsegs s hs
    · rw [if_neg hstart] at hs
      by_cases hrem : (text.drop start).length ≤ max_len
      · rw [if_pos hrem] at hs
        by_cases hsg : pyStrip (text.drop start) = []
        · rw [if_pos hsg] at hs
          exact hsegs s hs
        · rw [if_neg hsg] at hs
          rcases List.mem_append.mp hs with h | h
          · exact hsegs s h
          · rw [List.mem_singleton] at h
            subst h
            exact le_trans (pyStrip_len_le _) hrem
      · rw [if_neg hrem] at hs
        simp only at hs
        refine ih _ _ ?_ s hs
        intro t ht
        set e := (if rs = true then start + find_best_split_point (text.drop start) max_len
          else
            if min (start + max_len) text.length < text.length then
              if 3 * (max_len : Int)
                  < 5 * pyRfindSpace ((text.drop start).take max_len) then
                start + (pyRfindSpace ((text.drop start).take max_len)).toNat
              else min (start + max_len) text.length
            else min (start + max_len) text.length) with he
        have hE : e - start ≤ max_len := by
          rw [he]
          cases rs with
          | true =>
            simp only [if_pos]
            have := fbsp_le (text.drop start) max_len (by omega)
            omega
          | false =>
            simp only [Bool.false_eq_true, if_neg, if_false]
            by_cases h1 : min (start + max_len) text.length < text.length
            · rw [if_pos h1]
              by_cases h2 : 3 * (max_len : Int)
                  < 5 * pyRfindSpace ((text.drop start).take max_len)
              · rw [if_pos h2]
                have := toNat_rfind_le text start max_len
                omega
              · rw [if_neg h2]
                omega
            · rw [if_neg h1]
              omega
        by_cases hsg : pyStrip ((text.drop start).take (e - start)) = []
        · rw [if_pos hsg] at ht
          exact hsegs t ht
        · rw [if_neg hsg] at ht
          rcases List.mem_append.mp ht with h | h
          · exact hsegs t h
          · rw [List.mem_singleton] at h
            subst h
            refine le_trans (pyStrip_len_le _) ?_
            have := List.length_take (e - start) (text.drop start)
            omega

theorem split_long_text_le (text : Str) (max_len : Nat) (rs : Bool) :
    ∀ s ∈ split_long_text text max_len rs, s.length ≤ max_len :=
  fun s hs =>
    split_long_text_go_le text max_len rs (text.length + 1) 0 [] (by simp) s hs

theorem pagesToSegments_le (pages : List Page) (max_len : Nat) (rs : Bool) :
    ∀ p ∈ pagesToSegments pages max_len rs, p.2.length ≤ max_len := by
  intro p hp
  unfold pagesToSegments at hp
  rw [List.mem_join] at hp
  obtain ⟨l, hl, hpl⟩ := hp
  rw [List.mem_map] at hl
  obtain ⟨pg, _, heq⟩ := hl
  subst heq
  simp only at hpl
  by_cases h0 : pyStrip pg.text = []
  · rw [if_pos h0] at hpl
    simp at hpl
  · rw [if_neg h0] at hpl
    by_cases h1 : (pyStrip pg.text).length ≤ max_len
    · rw [if_pos h1] at hpl
      rw [List.mem_singleton] at hpl
      subst hpl
      exact h1
    · rw [if_neg h1] at hpl
      rw [List.mem_map] at hpl
      obtain ⟨s, hsmem, heq2⟩ := hpl
      subst heq2
      exact split_long_text_le _ _ _ s hsmem

/-- C1 (amended): every chunk produced by `chunk_pages` — the last one
included — has length at most `minLen + maxLen`.  The original `maxLen`
bound for non-final chunks does not hold: a buffer still under `minLen`
absorbs the next segment even when that passes `maxLen`, and is emitted as
a non-final chunk on the following flush (see the counterexample). -/
theorem claim_C1_chunk_length_bound :
    ∀ (pages : List Page) (min_len max_len overlap : Nat) (rs : Bool),
      ∀ c ∈ chunk_pages pages min_len max_len overlap rs,
        c.length ≤ min_len + max_len := by
  intro pages min_len max_len overlap rs c hc
  unfold chunk_pages at hc
  simp only at hc
  have hb := foldl_chunkStep_bound min_len max_len overlap
    (pagesToSegments pages max_len rs) ⟨[], [], []⟩
    (pagesToSegments_le pages max_len rs) (by simp) (by simp)
  set acc := (pagesToSegments pages max_len rs).foldl
    (chunkStep min_len max_len overlap) ⟨[], [], []⟩ with hacc
  by_cases h0 : acc.current_text = []
  · rw [if_pos h0] at hc
    exact hb.1 c hc
  · rw [if_neg h0] at hc
    rcases List.mem_append.mp hc with h | h
    · exact hb.1 c h
    · rw [List.mem_singleton] at h
      subst h
      exact hb.2

/-- The three example pages of the C1 counterexample: 7, 10 and 1
characters. -/
def exPages : List Page :=
  [⟨1, List.replicate 7 'a'⟩, ⟨2, List.replicate 10 'b'⟩, ⟨3, ['c']⟩]

/-- C1 counterexample: with `minLen = 8`, `maxLen = 12`, `overlap = 2`, the
three pages above produce two chunks; the FIRST (non-final) chunk has
length 18 > maxLen = 12.  (The 7-character buffer is under `minLen`, so the
10-character second page is appended despite passing `maxLen`; the
resulting 18-character buffer is flushed as a non-final chunk when the
third page arrives.) -/
theorem claim_C1_counterexample :
    ¬ (∀ (pages : List Page) (min_len max_len overlap : Nat) (rs : Bool),
        ∀ c ∈ (chunk_pages pages min_len max_len overlap rs).dropLast,
          c.length ≤ max_len) := by
  intro h
  have hm : (⟨List.replicate 7 'a' ++ ' ' :: List.replicate 10 'b', (1, 2), 18⟩ : Chunk)
      ∈ (chunk_pages exPages 8 12 2 true).dropLast := by decide
  have hle := h exPages 8 12 2 true _ hm
  exact absurd hle (by decide)

/-- Witness for C1 (amended): a concrete page yields a chunk within the
`minLen + maxLen` bound. -/
theorem claim_C1_chunk_length_bound_witness :
    ((⟨pyS ("ab"), (1, 1), 2⟩ : Chunk) ∈ chunk_pages [⟨1, pyS ("ab")⟩] 8 12 2 true)
    ∧ (⟨pyS ("ab"), (1, 1), 2⟩ : Chunk).length ≤ 8 + 12 :=
  ⟨by decide,
   claim_C1_chunk_length_bound [⟨1, pyS ("ab")⟩] 8 12 2 true _ (by decide)⟩
